import Mathlib

/-!
Verification of the windowed page-cache residency scanner
(`misc-utils/fincore.c`).

The embedding models the scanner as pure functions over an explicit
operating-system behaviour model:

* `WinSys` gives, per window offset, whether `mmap` succeeds and what the
  `mincore` system call returns (either an `errno` or the per-page residency
  bytes it writes into the buffer);
* the static residency buffer `vec` of `do_mincore` is modelled as a total
  map `Nat → Nat` from buffer index to byte value (the C buffer is a fixed
  array; indices at or beyond the page count of the current window are never
  accessed by the code, which the theorems below make precise);
* the window loop of `fincore_fd` is translated with a fuel parameter; the
  wrapper `fincore_fd` passes `file_size` as fuel, which is shown to be
  sufficient because each iteration advances the offset by a full window
  (at least one byte);
* observable behaviour (mappings established and released, diagnostics,
  table rows) is recorded in an event trace.
-/

namespace Fincore

/-- Number of pages covered by one mmap window (32 * 1024 in the source). -/
def N_PAGES_IN_WINDOW : Nat := 32 * 1024

/-- Observable events of a run: mappings established and released, and the
diagnostics written by `warn`/`warnx`. -/
inductive Ev where
  | mapped (off len : Nat)
  | unmapped (off len : Nat)
  | mmapWarn
  | mincoreWarn
  | openWarn
  | statWarn
deriving DecidableEq

/-- Result of `do_mincore` / `fincore_fd`: the C return code, the final value
of `*count_incore`, the contents of the static residency buffer, and the
events that occurred. -/
structure FdOut where
  rc : Int
  count : Nat
  vec : Nat → Nat
  events : List Ev

/-- Page count of a window: `(len / pagesize) + ((len % pagesize) ? 1 : 0)`
from `do_mincore`. -/
def nPages (ps len : Nat) : Nat :=
  len / ps + (if len % ps ≠ 0 then 1 else 0)

/-- The counting loop of `do_mincore`:
`while (n > 0) { if (vec[--n] & 0x1) { vec[n] = 0; (*count_incore)++; } }`.
Returns the final buffer contents and counter. -/
def mincoreLoop (vec : Nat → Nat) (count : Nat) : Nat → ((Nat → Nat) × Nat)
  | 0 => (vec, count)
  | n + 1 =>
    if vec n % 2 = 1 then
      mincoreLoop (fun j => if j = n then 0 else vec j) (count + 1) n
    else
      mincoreLoop vec count n

/-- One `do_mincore` call on a window of length `len`.  `osRes` is the
behaviour of the `mincore` system call for this window: `.error e` models a
failure with `errno = e` (the function warns and returns `-errno`);
`.ok fresh` models success, in which case the kernel writes one byte per
page of the window — `fresh` — into the start of the static buffer, and the
counting loop then runs over exactly `nPages ps len` entries. -/
def do_mincore (ps len : Nat) (osRes : Except Nat (List Nat))
    (vec : Nat → Nat) (count : Nat) : FdOut :=
  let n := nPages ps len
  match osRes with
  | .error e => { rc := -(e : Int), count := count, vec := vec, events := [Ev.mincoreWarn] }
  | .ok fresh =>
    let written := fun i => if i < n then fresh.getD i 0 else vec i
    let r := mincoreLoop written count n
    { rc := 0, count := r.2, vec := r.1, events := [] }

/-- Operating-system behaviour of one open file, per window offset. -/
structure WinSys where
  mmapOk : Nat → Bool
  mincoreRes : Nat → Except Nat (List Nat)

/-- The window loop of `fincore_fd`, with an explicit fuel parameter (the
wrapper passes `file_size`, which suffices since every iteration advances
`off` by a full window).  Mirrors:
`for (file_offset = 0; file_offset < file_size; file_offset += window_size)`
with `len = min(window_size, file_size - file_offset)`; on `mmap` failure it
warns once, sets `rc = -EINVAL` (= -22) and breaks; on `do_mincore` failure
it breaks (without reaching the `munmap` call); otherwise it unmaps and
continues. -/
def fincore_fd_go (sys : WinSys) (ps fs : Nat) :
    Nat → Nat → (Nat → Nat) → Nat → Bool → Int → FdOut
  | 0, _off, vec, count, _warned, rc =>
    { rc := rc, count := count, vec := vec, events := [] }
  | fuel + 1, off, vec, count, warned, rc =>
    if off < fs then
      let window_size := N_PAGES_IN_WINDOW * ps
      let len := min window_size (fs - off)
      if sys.mmapOk off then
        let m := do_mincore ps len (sys.mincoreRes off) vec count
        if m.rc ≠ 0 then
          { rc := m.rc, count := m.count, vec := m.vec,
            events := Ev.mapped off len :: m.events }
        else
          let rest := fincore_fd_go sys ps fs fuel (off + window_size) m.vec m.count warned m.rc
          { rc := rest.rc, count := rest.count, vec := rest.vec,
            events := Ev.mapped off len :: m.events ++ Ev.unmapped off len :: rest.events }
      else if warned then
        { rc := rc, count := count, vec := vec, events := [] }
      else
        { rc := -22, count := count, vec := vec, events := [Ev.mmapWarn] }
    else
      { rc := rc, count := count, vec := vec, events := [] }

/-- `fincore_fd`: run the window loop from offset 0 with `rc = 0` and
`warned_once = 0`. -/
def fincore_fd (ps : Nat) (sys : WinSys) (fs : Nat)
    (vec : Nat → Nat) (count : Nat) : FdOut :=
  fincore_fd_go sys ps fs fs 0 vec count false 0

/-- The part of `struct stat` the program reads. -/
structure StatBuf where
  isDir : Bool
  st_size : Nat
deriving DecidableEq

/-- Operating-system behaviour of one input path: whether `open` succeeds,
what `fstat` returns (errno or a stat buffer), the per-window behaviour of
the opened file, and `junk`, the arbitrary contents of the caller's
uninitialized `struct stat` (read by `main` when `open` fails). -/
structure PathSys where
  openOk : Bool
  statRes : Except Nat StatBuf
  win : WinSys
  junk : Nat

/-- Result of `fincore_name`: return code (`<0` error, `0` success,
`1` ignore), the stat buffer as written through the out-parameter (`none`
when the path was never stat-ed), the count, buffer and events. -/
structure NameOut where
  rc : Int
  sb : Option StatBuf
  count : Nat
  vec : Nat → Nat
  events : List Ev

/-- `fincore_name`: open, fstat, classify; scan regular non-empty files. -/
def fincore_name (ps : Nat) (p : PathSys) (vec : Nat → Nat) (count : Nat) : NameOut :=
  if p.openOk = false then
    { rc := 0, sb := none, count := count, vec := vec, events := [Ev.openWarn] }
  else
    match p.statRes with
    | .error e =>
      { rc := -(e : Int), sb := none, count := count, vec := vec, events := [Ev.statWarn] }
    | .ok sb =>
      if sb.isDir then
        { rc := 1, sb := some sb, count := count, vec := vec, events := [] }
      else if sb.st_size ≠ 0 then
        let f := fincore_fd ps p.win sb.st_size vec count
        { rc := f.rc, sb := some sb, count := f.count, vec := f.vec, events := f.events }
      else
        { rc := 0, sb := some sb, count := count, vec := vec, events := [] }

/-- Per-path outcome as observed at the result sink: a table row (with the
size and count that `add_output_data` receives), an ignored path
(directory), or a failure (no row). -/
inductive Outcome where
  | row (size pages : Nat)
  | ignored
  | failed
deriving DecidableEq

/-- The `switch` in `main`: `case 0` adds a row from `sb.st_size` (which is
the caller's uninitialized `junk` when `fincore_name` never wrote `sb`) and
`count_incore`; `case 1` ignores; anything else marks failure. -/
def outcomeOf (out : NameOut) (junk : Nat) : Outcome :=
  if out.rc = 0 then
    Outcome.row (match out.sb with | some sb => sb.st_size | none => junk) out.count
  else if out.rc = 1 then Outcome.ignored
  else Outcome.failed

/-- The path loop of `main`: processes every path in order with a fresh
`count_incore = 0`, threads the static buffer and the aggregate exit status
(`rc = EXIT_FAILURE = 1` once any path returns a negative code). -/
def main_loop (ps : Nat) :
    List PathSys → (Nat → Nat) → Nat → (List (Outcome × List Ev) × Nat × (Nat → Nat))
  | [], vec, rc => ([], rc, vec)
  | p :: rest, vec, rc =>
    let out := fincore_name ps p vec 0
    let rcNext := if out.rc = 0 ∨ out.rc = 1 then rc else 1
    let r := main_loop ps rest out.vec rcNext
    ((outcomeOf out p.junk, out.events) :: r.1, r.2.1, r.2.2)

/-- `main` after option parsing: if building the output table or its columns
fails, the run aborts with `EXIT_FAILURE` before scanning; otherwise every
path is processed (static buffer initially zero, status initially
`EXIT_SUCCESS`).  Returns the per-path outcomes and the exit status. -/
def fincore_main (ps : Nat) (tableOk : Bool) (paths : List PathSys) :
    List (Outcome × List Ev) × Nat :=
  if tableOk then
    let r := main_loop ps paths (fun _ => 0) 0
    (r.1, r.2.1)
  else ([], 1)

/-- Windows established by a run, in event order. -/
def mappedList (evs : List Ev) : List (Nat × Nat) :=
  evs.filterMap fun e => match e with
    | Ev.mapped off len => some (off, len)
    | _ => none

/-- Windows released by a run, in event order. -/
def unmappedList (evs : List Ev) : List (Nat × Nat) :=
  evs.filterMap fun e => match e with
    | Ev.unmapped off len => some (off, len)
    | _ => none

/-- Number of mmap-failure diagnostics in a trace. -/
def mmapWarnCount (evs : List Ev) : Nat :=
  (evs.filter fun e => e = Ev.mmapWarn).length

/-- Number of resident pages among the first `n` bytes of a residency
vector (entries with the least-significant bit set). -/
def winInc (fresh : List Nat) (n : Nat) : Nat :=
  ((List.range n).filter fun i => fresh.getD i 0 % 2 = 1).length

/-- Number of odd entries among the first `n` cells of a buffer. -/
def countOdd (vec : Nat → Nat) (n : Nat) : Nat :=
  ((List.range n).filter fun i => vec i % 2 = 1).length

/-- Outcome of a path, as a function of that path's behaviour alone
(`fincore_name` run on a zero buffer; shown below to coincide with the
outcome inside any run). -/
def pathOutcome (ps : Nat) (p : PathSys) : Outcome :=
  outcomeOf (fincore_name ps p (fun _ => 0) 0) p.junk

/-- Events of a path, as a function of that path's behaviour alone. -/
def pathEvents (ps : Nat) (p : PathSys) : List Ev :=
  (fincore_name ps p (fun _ => 0) 0).events

/-- Return code of `fincore_name` for a path, as a function of that path's
behaviour alone. -/
def pathRC (ps : Nat) (p : PathSys) : Int :=
  (fincore_name ps p (fun _ => 0) 0).rc

/-- Modelled from the spec: the sequence of window descriptors for a file of
the given size — windows tile `[0, size)` contiguously in ascending offset
order, the i-th window starting at `i * ws` with length
`min ws (size - i * ws)`, `⌈size / ws⌉` windows in total. -/
def specWindows (ws size : Nat) : List (Nat × Nat) :=
  (List.range ((size + ws - 1) / ws)).map fun i => (i * ws, min ws (size - i * ws))

/-- Suffix of the spec's window sequence starting at a given offset
(proof-internal generalisation of `specWindows`). -/
def specTail (ws fs off : Nat) : List (Nat × Nat) :=
  (List.range ((fs - off + ws - 1) / ws)).map
    fun i => (off + i * ws, min ws (fs - off - i * ws))

/-- All error codes the OS model reports for a path are positive, as POSIX
guarantees for `errno`. -/
def errnoPos (p : PathSys) : Prop :=
  (∀ e, p.statRes = Except.error e → 0 < e) ∧
  (∀ off e, p.win.mincoreRes off = Except.error e → 0 < e)

/-- The path is a directory according to its stat result. -/
def dirPath (p : PathSys) : Prop :=
  ∃ sb, p.statRes = Except.ok sb ∧ sb.isDir = true

/-- The path suffers a fatal per-file error: `fstat` fails, or the file is a
regular non-empty file and some window of it suffers an `mmap` or `mincore`
failure. -/
def fatalPath (ps : Nat) (p : PathSys) : Prop :=
  p.openOk = true ∧
  ((∃ e, p.statRes = Except.error e) ∨
   (∃ sb, p.statRes = Except.ok sb ∧ sb.isDir = false ∧ 0 < sb.st_size ∧
     ∃ j, j * (N_PAGES_IN_WINDOW * ps) < sb.st_size ∧
       (p.win.mmapOk (j * (N_PAGES_IN_WINDOW * ps)) = false ∨
        ∃ e, p.win.mincoreRes (j * (N_PAGES_IN_WINDOW * ps)) = Except.error e)))

/-! ### Properties of the counting loop of `do_mincore` -/

lemma countOdd_congr {v w : Nat → Nat} (n : Nat) (h : ∀ i, i < n → v i = w i) :
    countOdd v n = countOdd w n := by
  unfold countOdd
  rw [List.filter_congr]
  intro i hi
  rw [h i (List.mem_range.mp hi)]

lemma countOdd_succ (vec : Nat → Nat) (n : Nat) :
    countOdd vec (n + 1) = countOdd vec n + (if vec n % 2 = 1 then 1 else 0) := by
  unfold countOdd
  rw [List.range_succ, List.filter_append, List.length_append]
  congr 1
  by_cases h : vec n % 2 = 1 <;> simp [h]

lemma mincoreLoop_count (n : Nat) : ∀ (vec : Nat → Nat) (count : Nat),
    (mincoreLoop vec count n).2 = count + countOdd vec n := by
  induction n with
  | zero => intro vec count; simp [mincoreLoop, countOdd]
  | succ n ih =>
    intro vec count
    by_cases h : vec n % 2 = 1
    · simp only [mincoreLoop, if_pos h]
      rw [ih]
      have hc : countOdd (fun j => if j = n then 0 else vec j) n = countOdd vec n := by
        apply countOdd_congr
        intro i hi
        simp [Nat.ne_of_lt hi]
      rw [hc, countOdd_succ, if_pos h]
      omega
    · simp only [mincoreLoop, if_neg h]
      rw [ih, countOdd_succ, if_neg h]
      omega

lemma mincoreLoop_vec (n : Nat) : ∀ (vec : Nat → Nat) (count : Nat),
    (mincoreLoop vec count n).1 = fun i => if i < n ∧ vec i % 2 = 1 then 0 else vec i := by
  induction n with
  | zero =>
    intro vec count
    funext i
    simp [mincoreLoop]
  | succ n ih =>
    intro vec count
    by_cases h : vec n % 2 = 1
    · simp only [mincoreLoop, if_pos h]
      rw [ih]
      funext i
      rcases Nat.lt_trichotomy i n with hin | rfl | hin
      · have hne : i ≠ n := Nat.ne_of_lt hin
        simp [hne, hin, Nat.lt_succ_of_lt hin]
      · simp [h, Nat.lt_irrefl, Nat.lt_succ_self]
      · have hne : i ≠ n := Nat.ne_of_gt hin
        have h1 : ¬ i < n := by omega
        have h2 : ¬ i < n + 1 := by omega
        simp [hne, h1, h2]
    · simp only [mincoreLoop, if_neg h]
      rw [ih]
      funext i
      rcases Nat.lt_trichotomy i n with hin | rfl | hin
      · simp [hin, Nat.lt_succ_of_lt hin]
      · simp [h, Nat.lt_irrefl, Nat.lt_succ_self]
      · have h1 : ¬ i < n := by omega
        have h2 : ¬ i < n + 1 := by omega
        simp [h1, h2]

/-! ### Properties of `do_mincore` -/

lemma nPages_eq (ps len : Nat) (hp : 0 < ps) : nPages ps len = (len + ps - 1) / ps := by
  have hqr := Nat.div_add_mod len ps
  have hr : len % ps < ps := Nat.mod_lt _ hp
  by_cases h : len % ps = 0
  · have h1 : len + ps - 1 = ps * (len / ps) + (ps - 1) := by omega
    simp only [nPages, h1, Nat.mul_add_div hp, Nat.div_eq_of_lt (show ps - 1 < ps by omega)]
    simp [h]
  · have h1 : len + ps - 1 = ps * (len / ps) + (len % ps + ps - 1) := by omega
    simp only [nPages, h1, Nat.mul_add_div hp]
    have h2 : len % ps + ps - 1 = (len % ps - 1) + 1 * ps := by omega
    rw [h2, Nat.add_mul_div_right _ _ hp,
      Nat.div_eq_of_lt (show len % ps - 1 < ps by omega)]
    simp [h]

lemma do_mincore_ok_rc (ps len : Nat) (fresh : List Nat) (vec : Nat → Nat) (count : Nat) :
    (do_mincore ps len (Except.ok fresh) vec count).rc = 0 := rfl

lemma do_mincore_ok_events (ps len : Nat) (fresh : List Nat) (vec : Nat → Nat) (count : Nat) :
    (do_mincore ps len (Except.ok fresh) vec count).events = [] := rfl

lemma do_mincore_ok_count (ps len : Nat) (fresh : List Nat) (vec : Nat → Nat) (count : Nat) :
    (do_mincore ps len (Except.ok fresh) vec count).count
      = count + winInc fresh (nPages ps len) := by
  show (mincoreLoop _ count (nPages ps len)).2 = _
  rw [mincoreLoop_count]
  congr 1
  apply countOdd_congr
  intro i hi
  simp [hi]

lemma do_mincore_ok_vec (ps len : Nat) (fresh : List Nat) (vec : Nat → Nat) (count : Nat) :
    (do_mincore ps len (Except.ok fresh) vec count).vec
      = fun i => if i < nPages ps len ∧ (if i < nPages ps len then fresh.getD i 0 else vec i) % 2 = 1
                 then 0
                 else (if i < nPages ps len then fresh.getD i 0 else vec i) := by
  show (mincoreLoop _ count (nPages ps len)).1 = _
  rw [mincoreLoop_vec]

lemma do_mincore_err (ps len e : Nat) (vec : Nat → Nat) (count : Nat) :
    do_mincore ps len (Except.error e) vec count
      = { rc := -(e : Int), count := count, vec := vec, events := [Ev.mincoreWarn] } := rfl

/-! ### Properties of the spec's window sequence -/

lemma range_map_succ_shift {α : Type _} (n : Nat) (f : Nat → α) :
    (List.range (n + 1)).map f = f 0 :: (List.range n).map fun j => f (j + 1) := by
  rw [List.range_succ_eq_map, List.map_cons, List.map_map]
  rfl

lemma specTail_stop {ws fs off : Nat} (hw : 0 < ws) (h : fs ≤ off) :
    specTail ws fs off = [] := by
  unfold specTail
  rw [Nat.sub_eq_zero_of_le h,
    Nat.div_eq_of_lt (show 0 + ws - 1 < ws by omega)]
  rfl

lemma specTail_step {ws fs off : Nat} (hw : 0 < ws) (h : off < fs) :
    specTail ws fs off = (off, min ws (fs - off)) :: specTail ws fs (off + ws) := by
  unfold specTail
  have hlen : (fs - off + ws - 1) / ws = (fs - (off + ws) + ws - 1) / ws + 1 := by
    rcases le_or_lt (fs - off) ws with hle | hgt
    · have e0 : fs - (off + ws) = 0 := by omega
      rw [e0, Nat.div_eq_of_lt (show 0 + ws - 1 < ws by omega)]
      have e1 : fs - off + ws - 1 = (fs - off - 1) + 1 * ws := by omega
      rw [e1, Nat.add_mul_div_right _ _ hw,
        Nat.div_eq_of_lt (show fs - off - 1 < ws by omega)]
    · have e1 : fs - off + ws - 1 = (fs - (off + ws) + ws - 1) + 1 * ws := by omega
      rw [e1, Nat.add_mul_div_right _ _ hw]
  rw [hlen, range_map_succ_shift]
  congr 1
  · simp
  · apply List.map_congr_left
    intro j _
    have e2 : (j + 1) * ws = j * ws + ws := Nat.succ_mul j ws
    rw [Prod.mk.injEq]
    refine ⟨by omega, ?_⟩
    have e3 : fs - off - (j + 1) * ws = fs - (off + ws) - j * ws := by omega
    rw [e3]

lemma specTail_zero (ws fs : Nat) : specTail ws fs 0 = specWindows ws fs := by
  unfold specTail specWindows
  simp

lemma specWindows_length (ws fs : Nat) :
    (specWindows ws fs).length = (fs + ws - 1) / ws := by
  simp [specWindows]

lemma specWindows_getD (ws fs i : Nat) (hi : i < (specWindows ws fs).length) :
    (specWindows ws fs).getD i (0, 0) = (i * ws, min ws (fs - i * ws)) := by
  rw [List.getD_eq_getElem _ _ hi]
  unfold specWindows
  simp

lemma specWindows_pos_length {ws fs : Nat} (hw : 0 < ws) (hs : 0 < fs) :
    0 < (specWindows ws fs).length := by
  rw [specWindows_length]
  have h1 : 1 ≤ (fs + ws - 1) / ws := (Nat.le_div_iff_mul_le hw).mpr (by omega)
  omega

lemma specWindows_idx_lt {ws fs i : Nat} (hw : 0 < ws)
    (hi : i < (specWindows ws fs).length) : i * ws < fs := by
  rw [specWindows_length] at hi
  have hdm := Nat.div_add_mod (fs + ws - 1) ws
  have hmod : (fs + ws - 1) % ws < ws := Nat.mod_lt _ hw
  have h3 : ws * (i + 1) ≤ ws * ((fs + ws - 1) / ws) :=
    Nat.mul_le_mul_left ws (by omega)
  have e1 : ws * (i + 1) = ws * i + ws := by ring
  have e2 : i * ws = ws * i := by ring
  omega

lemma specWindows_succ_lt {ws fs i : Nat} (hw : 0 < ws)
    (hi : i + 1 < (specWindows ws fs).length) : (i + 1) * ws < fs := by
  rw [specWindows_length] at hi
  have hdm := Nat.div_add_mod (fs + ws - 1) ws
  have hmod : (fs + ws - 1) % ws < ws := Nat.mod_lt _ hw
  have h3 : ws * (i + 2) ≤ ws * ((fs + ws - 1) / ws) :=
    Nat.mul_le_mul_left ws (by omega)
  have e1 : ws * (i + 2) = ws * i + 2 * ws := by ring
  have e2 : (i + 1) * ws = ws * i + ws := by ring
  omega

lemma specTail_mem {ws fs : Nat} (hw : 0 < ws) :
    ∀ d off, fs - off ≤ d → ∀ q ∈ specTail ws fs off,
      off ≤ q.1 ∧ q.2 = min ws (fs - q.1) ∧ 0 < q.2 ∧ q.1 + q.2 ≤ fs := by
  intro d
  induction d with
  | zero =>
    intro off h q hq
    rw [specTail_stop hw (by omega)] at hq
    cases hq
  | succ d ih =>
    intro off h q hq
    by_cases hof : off < fs
    · rw [specTail_step hw hof] at hq
      rcases List.mem_cons.mp hq with rfl | hq
      · exact ⟨Nat.le_refl _, rfl, by omega, by omega⟩
      · have h2 := ih (off + ws) (by omega) q hq
        exact ⟨by omega, h2.2.1, h2.2.2.1, h2.2.2.2⟩
    · rw [specTail_stop hw (by omega)] at hq
      cases hq

lemma specTail_sum {ws fs : Nat} (hw : 0 < ws) :
    ∀ d off, fs - off ≤ d → ((specTail ws fs off).map fun q => q.2).sum = fs - off := by
  intro d
  induction d with
  | zero =>
    intro off h
    rw [specTail_stop hw (by omega)]
    simp
    omega
  | succ d ih =>
    intro off h
    by_cases hof : off < fs
    · rw [specTail_step hw hof]
      simp only [List.map_cons, List.sum_cons]
      rw [ih (off + ws) (by omega)]
      omega
    · rw [specTail_stop hw (by omega)]
      simp
      omega

/-! ### Step lemmas for the window loop -/

lemma go_ge (sys : WinSys) (ps fs fuel off : Nat) (vec : Nat → Nat) (count : Nat)
    (warned : Bool) (rc : Int) (h : ¬ off < fs) :
    fincore_fd_go sys ps fs fuel off vec count warned rc
      = { rc := rc, count := count, vec := vec, events := [] } := by
  cases fuel <;> simp [fincore_fd_go, h]

lemma go_mmap_fail (sys : WinSys) (ps fs fuel off : Nat) (vec : Nat → Nat) (count : Nat)
    (rc : Int) (hof : off < fs) (hm0 : sys.mmapOk off = false) :
    fincore_fd_go sys ps fs (fuel + 1) off vec count false rc
      = { rc := -22, count := count, vec := vec, events := [Ev.mmapWarn] } := by
  simp [fincore_fd_go, hof, hm0]

lemma go_succ_ok (sys : WinSys) (ps fs fuel off : Nat) (vec : Nat → Nat) (count : Nat)
    (warned : Bool) (rc : Int) (v : List Nat)
    (hof : off < fs) (hm0 : sys.mmapOk off = true) (hv : sys.mincoreRes off = Except.ok v) :
    fincore_fd_go sys ps fs (fuel + 1) off vec count warned rc
      = (let len := min (N_PAGES_IN_WINDOW * ps) (fs - off)
         let m := do_mincore ps len (Except.ok v) vec count
         let rest := fincore_fd_go sys ps fs fuel (off + N_PAGES_IN_WINDOW * ps)
             m.vec m.count warned 0
         { rc := rest.rc, count := rest.count, vec := rest.vec,
           events := Ev.mapped off len :: Ev.unmapped off len :: rest.events }) := by
  simp only [fincore_fd_go, if_pos hof, hm0, hv, if_true]
  simp [do_mincore_ok_rc, do_mincore_ok_events]

lemma go_mincore_fail (sys : WinSys) (ps fs fuel off e : Nat) (vec : Nat → Nat) (count : Nat)
    (warned : Bool) (rc : Int)
    (hof : off < fs) (hm0 : sys.mmapOk off = true)
    (hv : sys.mincoreRes off = Except.error e) (he : e ≠ 0) :
    fincore_fd_go sys ps fs (fuel + 1) off vec count warned rc
      = { rc := -(e : Int), count := count, vec := vec,
          events := [Ev.mapped off (min (N_PAGES_IN_WINDOW * ps) (fs - off)),
                     Ev.mincoreWarn] } := by
  simp only [fincore_fd_go, if_pos hof, hm0, hv, if_true]
  simp [do_mincore_err, he]

lemma go_mincore_fail0 (sys : WinSys) (ps fs fuel off : Nat) (vec : Nat → Nat) (count : Nat)
    (warned : Bool) (rc : Int)
    (hof : off < fs) (hm0 : sys.mmapOk off = true)
    (hv : sys.mincoreRes off = Except.error 0) :
    fincore_fd_go sys ps fs (fuel + 1) off vec count warned rc
      = (let len := min (N_PAGES_IN_WINDOW * ps) (fs - off)
         let rest := fincore_fd_go sys ps fs fuel (off + N_PAGES_IN_WINDOW * ps)
             vec count warned 0
         { rc := rest.rc, count := rest.count, vec := rest.vec,
           events := Ev.mapped off len :: Ev.mincoreWarn :: Ev.unmapped off len :: rest.events }) := by
  simp only [fincore_fd_go, if_pos hof, hm0, hv, if_true]
  simp [do_mincore_err]

lemma go_zero (sys : WinSys) (ps fs off : Nat) (vec : Nat → Nat) (count : Nat)
    (warned : Bool) (rc : Int) :
    fincore_fd_go sys ps fs 0 off vec count warned rc
      = { rc := rc, count := count, vec := vec, events := [] } := rfl

lemma go_mmap_fail_warned (sys : WinSys) (ps fs fuel off : Nat) (vec : Nat → Nat)
    (count : Nat) (rc : Int) (hof : off < fs) (hm0 : sys.mmapOk off = false) :
    fincore_fd_go sys ps fs (fuel + 1) off vec count true rc
      = { rc := rc, count := count, vec := vec, events := [] } := by
  simp [fincore_fd_go, hof, hm0]

lemma mappedList_nil : mappedList [] = [] := rfl

lemma mappedList_mapped (off len : Nat) (evs : List Ev) :
    mappedList (Ev.mapped off len :: evs) = (off, len) :: mappedList evs := by
  simp [mappedList]

lemma mappedList_unmapped (off len : Nat) (evs : List Ev) :
    mappedList (Ev.unmapped off len :: evs) = mappedList evs := by
  simp [mappedList]

lemma mappedList_mincoreWarn (evs : List Ev) :
    mappedList (Ev.mincoreWarn :: evs) = mappedList evs := by
  simp [mappedList]

lemma mmapWarnCount_mapped (off len : Nat) (evs : List Ev) :
    mmapWarnCount (Ev.mapped off len :: evs) = mmapWarnCount evs := by
  simp [mmapWarnCount]

lemma mmapWarnCount_unmapped (off len : Nat) (evs : List Ev) :
    mmapWarnCount (Ev.unmapped off len :: evs) = mmapWarnCount evs := by
  simp [mmapWarnCount]

lemma mmapWarnCount_single : mmapWarnCount [Ev.mmapWarn] = 1 := rfl

/-! ### The window loop under fully successful system calls -/

lemma go_all_ok (sys : WinSys) (ps fs : Nat) (hp : 0 < ps) :
    ∀ fuel off (vec : Nat → Nat) (count : Nat) (warned : Bool),
      fs - off ≤ fuel →
      (∀ j, off + j * (N_PAGES_IN_WINDOW * ps) < fs →
        sys.mmapOk (off + j * (N_PAGES_IN_WINDOW * ps)) = true) →
      (∀ j, off + j * (N_PAGES_IN_WINDOW * ps) < fs →
        ∃ v, sys.mincoreRes (off + j * (N_PAGES_IN_WINDOW * ps)) = Except.ok v) →
      (fincore_fd_go sys ps fs fuel off vec count warned 0).rc = 0 ∧
      mappedList (fincore_fd_go sys ps fs fuel off vec count warned 0).events
        = specTail (N_PAGES_IN_WINDOW * ps) fs off := by
  have hws : 0 < N_PAGES_IN_WINDOW * ps := Nat.mul_pos (by decide) hp
  intro fuel
  induction fuel with
  | zero =>
    intro off vec count warned hfuel hm hq
    rw [go_zero, specTail_stop hws (by omega)]
    exact ⟨rfl, rfl⟩
  | succ fuel ih =>
    intro off vec count warned hfuel hm hq
    by_cases hof : off < fs
    · have hm0 : sys.mmapOk off = true := by
        have h0 := hm 0 (by simpa using hof)
        simpa using h0
      obtain ⟨v, hv⟩ : ∃ v, sys.mincoreRes off = Except.ok v := by
        have h0 := hq 0 (by simpa using hof)
        simpa using h0
      rw [go_succ_ok sys ps fs fuel off vec count warned 0 v hof hm0 hv]
      simp only []
      have hm' : ∀ j, (off + N_PAGES_IN_WINDOW * ps) + j * (N_PAGES_IN_WINDOW * ps) < fs →
          sys.mmapOk ((off + N_PAGES_IN_WINDOW * ps) + j * (N_PAGES_IN_WINDOW * ps)) = true := by
        intro j hj
        have e : off + N_PAGES_IN_WINDOW * ps + j * (N_PAGES_IN_WINDOW * ps)
            = off + (j + 1) * (N_PAGES_IN_WINDOW * ps) := by ring
        rw [e] at hj ⊢
        exact hm (j + 1) hj
      have hq' : ∀ j, (off + N_PAGES_IN_WINDOW * ps) + j * (N_PAGES_IN_WINDOW * ps) < fs →
          ∃ w, sys.mincoreRes ((off + N_PAGES_IN_WINDOW * ps) + j * (N_PAGES_IN_WINDOW * ps))
            = Except.ok w := by
        intro j hj
        have e : off + N_PAGES_IN_WINDOW * ps + j * (N_PAGES_IN_WINDOW * ps)
            = off + (j + 1) * (N_PAGES_IN_WINDOW * ps) := by ring
        rw [e] at hj ⊢
        exact hq (j + 1) hj
      obtain ⟨hrc, hmap⟩ := ih (off + N_PAGES_IN_WINDOW * ps)
        (do_mincore ps (min (N_PAGES_IN_WINDOW * ps) (fs - off)) (Except.ok v) vec count).vec
        (do_mincore ps (min (N_PAGES_IN_WINDOW * ps) (fs - off)) (Except.ok v) vec count).count
        warned (by omega) hm' hq'
      refine ⟨hrc, ?_⟩
      rw [mappedList_mapped, mappedList_unmapped, hmap, specTail_step hws hof]
    · rw [go_ge sys ps fs (fuel + 1) off vec count warned 0 hof,
        specTail_stop hws (by omega)]
      exact ⟨rfl, rfl⟩

/-! ### Bound on the accumulated count -/

lemma window_ceil_split (ps a : Nat) (hp : 0 < ps) :
    nPages ps (min (N_PAGES_IN_WINDOW * ps) a) + (a - N_PAGES_IN_WINDOW * ps + ps - 1) / ps
      ≤ (a + ps - 1) / ps := by
  rcases le_or_lt a (N_PAGES_IN_WINDOW * ps) with hle | hgt
  · rw [min_eq_right hle]
    have e0 : a - N_PAGES_IN_WINDOW * ps = 0 := by omega
    rw [e0, nPages_eq ps a hp, Nat.div_eq_of_lt (show 0 + ps - 1 < ps by omega)]
    omega
  · rw [min_eq_left (le_of_lt hgt)]
    have hN : nPages ps (N_PAGES_IN_WINDOW * ps) = N_PAGES_IN_WINDOW := by
      unfold nPages
      rw [Nat.mul_div_cancel _ hp]
      simp [Nat.mul_mod_left]
    rw [hN]
    have ec : ps * N_PAGES_IN_WINDOW = N_PAGES_IN_WINDOW * ps := by ring
    have e1 : a + ps - 1
        = ps * N_PAGES_IN_WINDOW + (a - N_PAGES_IN_WINDOW * ps + ps - 1) := by omega
    rw [e1, Nat.mul_add_div hp]

lemma winInc_le (fresh : List Nat) (n : Nat) : winInc fresh n ≤ n := by
  have h := List.length_filter_le (fun i => decide (fresh.getD i 0 % 2 = 1)) (List.range n)
  simpa [winInc] using h

lemma go_count_le (sys : WinSys) (ps fs : Nat) (hp : 0 < ps) :
    ∀ fuel off (vec : Nat → Nat) (count : Nat) (warned : Bool) (rc : Int),
      (fincore_fd_go sys ps fs fuel off vec count warned rc).count
        ≤ count + (fs - off + ps - 1) / ps := by
  intro fuel
  induction fuel with
  | zero =>
    intro off vec count warned rc
    rw [go_zero]
    exact Nat.le_add_right _ _
  | succ fuel ih =>
    intro off vec count warned rc
    by_cases hof : off < fs
    · by_cases hm : sys.mmapOk off = true
      · have hmono : (fs - (off + N_PAGES_IN_WINDOW * ps) + ps - 1) / ps
            ≤ (fs - off + ps - 1) / ps :=
          Nat.div_le_div_right (by omega)
        cases hv : sys.mincoreRes off with
        | error e =>
          by_cases he : e = 0
          · subst he
            rw [go_mincore_fail0 sys ps fs fuel off vec count warned rc hof hm hv]
            simp only []
            have h1 := ih (off + N_PAGES_IN_WINDOW * ps) vec count warned 0
            omega
          · rw [go_mincore_fail sys ps fs fuel off e vec count warned rc hof hm hv he]
            exact Nat.le_add_right _ _
        | ok v =>
          rw [go_succ_ok sys ps fs fuel off vec count warned rc v hof hm hv]
          simp only []
          rw [do_mincore_ok_count]
          have h1 := ih (off + N_PAGES_IN_WINDOW * ps)
            (do_mincore ps (min (N_PAGES_IN_WINDOW * ps) (fs - off)) (Except.ok v) vec count).vec
            (count + winInc v (nPages ps (min (N_PAGES_IN_WINDOW * ps) (fs - off))))
            warned 0
          have e2 : fs - (off + N_PAGES_IN_WINDOW * ps)
              = fs - off - N_PAGES_IN_WINDOW * ps := by omega
          rw [e2] at h1
          have h2 : winInc v (nPages ps (min (N_PAGES_IN_WINDOW * ps) (fs - off)))
              ≤ nPages ps (min (N_PAGES_IN_WINDOW * ps) (fs - off)) := winInc_le _ _
          have h3 := window_ceil_split ps (fs - off) hp
          omega
      · have hm0 : sys.mmapOk off = false := by simpa using hm
        cases warned
        · rw [go_mmap_fail sys ps fs fuel off vec count rc hof hm0]
          exact Nat.le_add_right _ _
        · rw [go_mmap_fail_warned sys ps fs fuel off vec count rc hof hm0]
          exact Nat.le_add_right _ _
    · rw [go_ge sys ps fs (fuel + 1) off vec count warned rc hof]
      exact Nat.le_add_right _ _

/-! ### Windows stay inside the file, in every run -/

lemma go_mapped_sub (sys : WinSys) (ps fs : Nat) :
    ∀ fuel off (vec : Nat → Nat) (count : Nat) (warned : Bool) (rc : Int),
      ∀ q ∈ mappedList (fincore_fd_go sys ps fs fuel off vec count warned rc).events,
        off ≤ q.1 ∧ q.2 = min (N_PAGES_IN_WINDOW * ps) (fs - q.1) ∧ q.1 + q.2 ≤ fs := by
  intro fuel
  induction fuel with
  | zero =>
    intro off vec count warned rc q hq
    rw [go_zero] at hq
    cases hq
  | succ fuel ih =>
    intro off vec count warned rc q hq
    by_cases hof : off < fs
    · by_cases hm : sys.mmapOk off = true
      · cases hv : sys.mincoreRes off with
        | error e =>
          by_cases he : e = 0
          · subst he
            rw [go_mincore_fail0 sys ps fs fuel off vec count warned rc hof hm hv] at hq
            simp only [] at hq
            rw [mappedList_mapped, mappedList_mincoreWarn, mappedList_unmapped] at hq
            rcases List.mem_cons.mp hq with rfl | hq
            · exact ⟨Nat.le_refl _, rfl, by omega⟩
            · have h2 := ih (off + N_PAGES_IN_WINDOW * ps) vec count warned 0 q hq
              exact ⟨by omega, h2.2.1, h2.2.2⟩
          · rw [go_mincore_fail sys ps fs fuel off e vec count warned rc hof hm hv he] at hq
            rw [mappedList_mapped, mappedList_mincoreWarn, mappedList_nil] at hq
            rcases List.mem_cons.mp hq with rfl | hq
            · exact ⟨Nat.le_refl _, rfl, by omega⟩
            · cases hq
        | ok v =>
          rw [go_succ_ok sys ps fs fuel off vec count warned rc v hof hm hv] at hq
          simp only [] at hq
          rw [mappedList_mapped, mappedList_unmapped] at hq
          rcases List.mem_cons.mp hq with rfl | hq
          · exact ⟨Nat.le_refl _, rfl, by omega⟩
          · have h2 := ih (off + N_PAGES_IN_WINDOW * ps)
              (do_mincore ps (min (N_PAGES_IN_WINDOW * ps) (fs - off)) (Except.ok v) vec count).vec
              (do_mincore ps (min (N_PAGES_IN_WINDOW * ps) (fs - off)) (Except.ok v) vec count).count
              warned 0 q hq
            exact ⟨by omega, h2.2.1, h2.2.2⟩
      · have hm0 : sys.mmapOk off = false := by simpa using hm
        cases warned
        · rw [go_mmap_fail sys ps fs fuel off vec count rc hof hm0] at hq
          cases hq
        · rw [go_mmap_fail_warned sys ps fs fuel off vec count rc hof hm0] at hq
          cases hq
    · rw [go_ge sys ps fs (fuel + 1) off vec count warned rc hof] at hq
      cases hq

/-! ### The return code and events do not depend on the incoming buffer or
counter, and the counter is additive -/

lemma go_indep (sys : WinSys) (ps fs : Nat) :
    ∀ fuel off (vec vec' : Nat → Nat) (count count' : Nat) (warned : Bool) (rc : Int),
      (fincore_fd_go sys ps fs fuel off vec count warned rc).rc
        = (fincore_fd_go sys ps fs fuel off vec' count' warned rc).rc ∧
      (fincore_fd_go sys ps fs fuel off vec count warned rc).events
        = (fincore_fd_go sys ps fs fuel off vec' count' warned rc).events ∧
      (fincore_fd_go sys ps fs fuel off vec count warned rc).count + count'
        = (fincore_fd_go sys ps fs fuel off vec' count' warned rc).count + count := by
  intro fuel
  induction fuel with
  | zero =>
    intro off vec vec' count count' warned rc
    rw [go_zero, go_zero]
    exact ⟨rfl, rfl, by dsimp only; omega⟩
  | succ fuel ih =>
    intro off vec vec' count count' warned rc
    by_cases hof : off < fs
    · by_cases hm : sys.mmapOk off = true
      · cases hv : sys.mincoreRes off with
        | error e =>
          by_cases he : e = 0
          · subst he
            rw [go_mincore_fail0 sys ps fs fuel off vec count warned rc hof hm hv,
              go_mincore_fail0 sys ps fs fuel off vec' count' warned rc hof hm hv]
            simp only []
            obtain ⟨h1, h2, h3⟩ := ih (off + N_PAGES_IN_WINDOW * ps) vec vec' count count'
              warned 0
            exact ⟨h1, by rw [h2], by omega⟩
          · rw [go_mincore_fail sys ps fs fuel off e vec count warned rc hof hm hv he,
              go_mincore_fail sys ps fs fuel off e vec' count' warned rc hof hm hv he]
            exact ⟨rfl, rfl, by dsimp only; omega⟩
        | ok v =>
          rw [go_succ_ok sys ps fs fuel off vec count warned rc v hof hm hv,
            go_succ_ok sys ps fs fuel off vec' count' warned rc v hof hm hv]
          simp only []
          rw [do_mincore_ok_count, do_mincore_ok_count]
          obtain ⟨h1, h2, h3⟩ := ih (off + N_PAGES_IN_WINDOW * ps)
            (do_mincore ps (min (N_PAGES_IN_WINDOW * ps) (fs - off)) (Except.ok v) vec count).vec
            (do_mincore ps (min (N_PAGES_IN_WINDOW * ps) (fs - off)) (Except.ok v) vec' count').vec
            (count + winInc v (nPages ps (min (N_PAGES_IN_WINDOW * ps) (fs - off))))
            (count' + winInc v (nPages ps (min (N_PAGES_IN_WINDOW * ps) (fs - off))))
            warned 0
          exact ⟨h1, by rw [h2], by omega⟩
      · have hm0 : sys.mmapOk off = false := by simpa using hm
        cases warned
        · rw [go_mmap_fail sys ps fs fuel off vec count rc hof hm0,
            go_mmap_fail sys ps fs fuel off vec' count' rc hof hm0]
          exact ⟨rfl, rfl, by dsimp only; omega⟩
        · rw [go_mmap_fail_warned sys ps fs fuel off vec count rc hof hm0,
            go_mmap_fail_warned sys ps fs fuel off vec' count' rc hof hm0]
          exact ⟨rfl, rfl, by dsimp only; omega⟩
    · rw [go_ge sys ps fs (fuel + 1) off vec count warned rc hof,
        go_ge sys ps fs (fuel + 1) off vec' count' warned rc hof]
      exact ⟨rfl, rfl, by dsimp only; omega⟩

/-! ### The return code of the loop is never positive -/

lemma go_rc_le (sys : WinSys) (ps fs : Nat) :
    ∀ fuel off (vec : Nat → Nat) (count : Nat) (warned : Bool) (rc : Int), rc ≤ 0 →
      (fincore_fd_go sys ps fs fuel off vec count warned rc).rc ≤ 0 := by
  intro fuel
  induction fuel with
  | zero =>
    intro off vec count warned rc h
    rw [go_zero]
    exact h
  | succ fuel ih =>
    intro off vec count warned rc h
    by_cases hof : off < fs
    · by_cases hm : sys.mmapOk off = true
      · cases hv : sys.mincoreRes off with
        | error e =>
          by_cases he : e = 0
          · subst he
            rw [go_mincore_fail0 sys ps fs fuel off vec count warned rc hof hm hv]
            simp only []
            exact ih (off + N_PAGES_IN_WINDOW * ps) vec count warned 0 (by omega)
          · rw [go_mincore_fail sys ps fs fuel off e vec count warned rc hof hm hv he]
            simp only []
            omega
        | ok v =>
          rw [go_succ_ok sys ps fs fuel off vec count warned rc v hof hm hv]
          simp only []
          exact ih (off + N_PAGES_IN_WINDOW * ps) _ _ warned 0 (by omega)
      · have hm0 : sys.mmapOk off = false := by simpa using hm
        cases warned
        · rw [go_mmap_fail sys ps fs fuel off vec count rc hof hm0]
          simp only []
          omega
        · rw [go_mmap_fail_warned sys ps fs fuel off vec count rc hof hm0]
          exact h
    · rw [go_ge sys ps fs (fuel + 1) off vec count warned rc hof]
      exact h

/-! ### A run hitting an `mmap` failure at window `i` -/

lemma go_fail_at (sys : WinSys) (ps fs : Nat) (hp : 0 < ps) :
    ∀ i fuel off (vec : Nat → Nat) (count : Nat),
      fs - off ≤ fuel →
      (∀ j, j < i → sys.mmapOk (off + j * (N_PAGES_IN_WINDOW * ps)) = true ∧
        ∃ v, sys.mincoreRes (off + j * (N_PAGES_IN_WINDOW * ps)) = Except.ok v) →
      off + i * (N_PAGES_IN_WINDOW * ps) < fs →
      sys.mmapOk (off + i * (N_PAGES_IN_WINDOW * ps)) = false →
      (fincore_fd_go sys ps fs fuel off vec count false 0).rc = -22 ∧
      mmapWarnCount (fincore_fd_go sys ps fs fuel off vec count false 0).events = 1 ∧
      mappedList (fincore_fd_go sys ps fs fuel off vec count false 0).events
        = (List.range i).map (fun j => (off + j * (N_PAGES_IN_WINDOW * ps),
            min (N_PAGES_IN_WINDOW * ps) (fs - (off + j * (N_PAGES_IN_WINDOW * ps))))) := by
  have hws : 0 < N_PAGES_IN_WINDOW * ps := Nat.mul_pos (by decide) hp
  intro i
  induction i with
  | zero =>
    intro fuel off vec count hfuel hgood hlt hbad
    simp only [Nat.zero_mul, Nat.add_zero] at hlt hbad
    cases fuel with
    | zero => omega
    | succ fuel =>
      rw [go_mmap_fail sys ps fs fuel off vec count 0 hlt hbad]
      exact ⟨rfl, mmapWarnCount_single, rfl⟩
  | succ i ih =>
    intro fuel off vec count hfuel hgood hlt hbad
    have hof : off < fs := by
      have hle : off ≤ off + (i + 1) * (N_PAGES_IN_WINDOW * ps) := Nat.le_add_right _ _
      omega
    have h0 := hgood 0 (Nat.succ_pos i)
    simp only [Nat.zero_mul, Nat.add_zero] at h0
    obtain ⟨hm0, v, hv⟩ : sys.mmapOk off = true ∧ ∃ v, sys.mincoreRes off = Except.ok v :=
      ⟨h0.1, h0.2⟩
    cases fuel with
    | zero => omega
    | succ fuel =>
      rw [go_succ_ok sys ps fs fuel off vec count false 0 v hof hm0 hv]
      simp only []
      have hshift : ∀ (k : Nat), off + N_PAGES_IN_WINDOW * ps + k * (N_PAGES_IN_WINDOW * ps)
          = off + (k + 1) * (N_PAGES_IN_WINDOW * ps) := by
        intro k
        ring
      obtain ⟨h1, h2, h3⟩ := ih fuel (off + N_PAGES_IN_WINDOW * ps)
        (do_mincore ps (min (N_PAGES_IN_WINDOW * ps) (fs - off)) (Except.ok v) vec count).vec
        (do_mincore ps (min (N_PAGES_IN_WINDOW * ps) (fs - off)) (Except.ok v) vec count).count
        (by omega)
        (by
          intro j hj
          rw [hshift j]
          exact hgood (j + 1) (by omega))
        (by rw [hshift i]; exact hlt)
        (by rw [hshift i]; exact hbad)
      refine ⟨h1, ?_, ?_⟩
      · rw [mmapWarnCount_mapped, mmapWarnCount_unmapped]
        exact h2
      · rw [mappedList_mapped, mappedList_unmapped, h3, range_map_succ_shift]
        congr 1
        · simp
        · apply List.map_congr_left
          intro j _
          rw [hshift j]

/-! ### Any bad window makes the loop fail -/

lemma go_bad_rc_neg (sys : WinSys) (ps fs : Nat) (hp : 0 < ps)
    (hE : ∀ off e, sys.mincoreRes off = Except.error e → 0 < e) :
    ∀ i fuel off (vec : Nat → Nat) (count : Nat),
      fs - off ≤ fuel →
      off + i * (N_PAGES_IN_WINDOW * ps) < fs →
      (sys.mmapOk (off + i * (N_PAGES_IN_WINDOW * ps)) = false ∨
       ∃ e, sys.mincoreRes (off + i * (N_PAGES_IN_WINDOW * ps)) = Except.error e) →
      (fincore_fd_go sys ps fs fuel off vec count false 0).rc < 0 := by
  have hws : 0 < N_PAGES_IN_WINDOW * ps := Nat.mul_pos (by decide) hp
  intro i
  induction i with
  | zero =>
    intro fuel off vec count hfuel hlt hbad
    simp only [Nat.zero_mul, Nat.add_zero] at hlt hbad
    cases fuel with
    | zero => omega
    | succ fuel =>
      by_cases hm : sys.mmapOk off = true
      · rcases hbad with hb | ⟨e, he⟩
        · rw [hm] at hb
          cases hb
        · have hepos := hE _ _ he
          rw [go_mincore_fail sys ps fs fuel off e vec count false 0 hlt hm he (by omega)]
          simp only []
          omega
      · have hm0 : sys.mmapOk off = false := by simpa using hm
        rw [go_mmap_fail sys ps fs fuel off vec count 0 hlt hm0]
        simp only []
        omega
  | succ i ih =>
    intro fuel off vec count hfuel hlt hbad
    have hof : off < fs := by
      have hle : off ≤ off + (i + 1) * (N_PAGES_IN_WINDOW * ps) := Nat.le_add_right _ _
      omega
    have hshift : ∀ (k : Nat), off + N_PAGES_IN_WINDOW * ps + k * (N_PAGES_IN_WINDOW * ps)
        = off + (k + 1) * (N_PAGES_IN_WINDOW * ps) := by
      intro k
      ring
    cases fuel with
    | zero => omega
    | succ fuel =>
      by_cases hm : sys.mmapOk off = true
      · cases hv : sys.mincoreRes off with
        | error e =>
          have hepos := hE _ _ hv
          rw [go_mincore_fail sys ps fs fuel off e vec count false 0 hof hm hv (by omega)]
          simp only []
          omega
        | ok v =>
          rw [go_succ_ok sys ps fs fuel off vec count false 0 v hof hm hv]
          simp only []
          exact ih fuel (off + N_PAGES_IN_WINDOW * ps) _ _ (by omega)
            (by rw [hshift i]; exact hlt)
            (by rw [hshift i]; exact hbad)
      · have hm0 : sys.mmapOk off = false := by simpa using hm
        rw [go_mmap_fail sys ps fs fuel off vec count 0 hof hm0]
        simp only []
        omega

/-! ### Per-path results do not depend on the inherited static buffer -/

lemma fincore_name_congr (ps : Nat) (p : PathSys) (vec vec' : Nat → Nat) :
    (fincore_name ps p vec 0).rc = (fincore_name ps p vec' 0).rc ∧
    (fincore_name ps p vec 0).sb = (fincore_name ps p vec' 0).sb ∧
    (fincore_name ps p vec 0).events = (fincore_name ps p vec' 0).events ∧
    (fincore_name ps p vec 0).count = (fincore_name ps p vec' 0).count := by
  by_cases ho : p.openOk = false
  · simp [fincore_name, ho]
  · cases hs : p.statRes with
    | error e => simp [fincore_name, ho, hs]
    | ok sb =>
      by_cases hd : sb.isDir = true
      · simp [fincore_name, ho, hs, hd]
      · by_cases hz : sb.st_size = 0
        · simp [fincore_name, ho, hs, hd, hz]
        · obtain ⟨h1, h2, h3⟩ := go_indep p.win ps sb.st_size sb.st_size 0 vec vec' 0 0 false 0
          simp only [fincore_name, ho, hs, hd, hz, if_false, ite_false, ne_eq,
            not_false_iff, if_true, ite_true, fincore_fd]
          refine ⟨?_, ?_, ?_, ?_⟩ <;> simp [fincore_fd, h1, h2]
          omega

lemma pathRC_cases (ps : Nat) (p : PathSys) :
    pathRC ps p = 0 ∨ pathRC ps p = 1 ∨ pathRC ps p < 0 := by
  unfold pathRC
  by_cases ho : p.openOk = false
  · simp [fincore_name, ho]
  · cases hs : p.statRes with
    | error e =>
      simp only [fincore_name, ho, hs]
      simp
      omega
    | ok sb =>
      by_cases hd : sb.isDir = true
      · simp [fincore_name, ho, hs, hd]
      · by_cases hz : sb.st_size = 0
        · simp [fincore_name, ho, hs, hd, hz]
        · have hle := go_rc_le p.win ps sb.st_size sb.st_size 0 (fun _ => 0) 0 false 0
            (by omega)
          simp only [fincore_name, ho, hs, hd, hz, fincore_fd]
          simp [hd, hz]
          omega

/-! ### The path loop of `main` -/

lemma main_loop_spec (ps : Nat) :
    ∀ (paths : List PathSys) (vec : Nat → Nat) (rc0 : Nat),
      (main_loop ps paths vec rc0).1
        = paths.map fun p => (pathOutcome ps p, pathEvents ps p) := by
  intro paths
  induction paths with
  | nil => intro vec rc0; rfl
  | cons p rest ih =>
    intro vec rc0
    simp only [main_loop, List.map_cons]
    obtain ⟨h1, h2, h3, h4⟩ := fincore_name_congr ps p vec (fun _ => 0)
    rw [List.cons.injEq]
    constructor
    · rw [Prod.mk.injEq]
      constructor
      · unfold pathOutcome outcomeOf
        rw [h1, h2, h4]
      · exact h3
    · exact ih _ _

lemma main_loop_exit_ok (ps : Nat) :
    ∀ (paths : List PathSys) (vec : Nat → Nat) (rc0 : Nat),
      (∀ p ∈ paths, ¬ pathRC ps p < 0) →
      (main_loop ps paths vec rc0).2.1 = rc0 := by
  intro paths
  induction paths with
  | nil => intro vec rc0 _; rfl
  | cons p rest ih =>
    intro vec rc0 h
    simp only [main_loop]
    have hrc : (fincore_name ps p vec 0).rc = pathRC ps p :=
      (fincore_name_congr ps p vec (fun _ => 0)).1
    have hp' : ¬ pathRC ps p < 0 := h p (List.mem_cons_self p rest)
    have hcond : (fincore_name ps p vec 0).rc = 0 ∨ (fincore_name ps p vec 0).rc = 1 := by
      rw [hrc]
      rcases pathRC_cases ps p with h0 | h1 | hneg
      · exact Or.inl h0
      · exact Or.inr h1
      · exact absurd hneg hp'
    rw [if_pos hcond]
    exact ih _ _ (fun q hq => h q (List.mem_cons_of_mem p hq))

lemma main_loop_exit_bad (ps : Nat) :
    ∀ (paths : List PathSys) (vec : Nat → Nat) (rc0 : Nat),
      (∃ p ∈ paths, pathRC ps p < 0) →
      (main_loop ps paths vec rc0).2.1 = 1 := by
  intro paths
  induction paths with
  | nil =>
    intro vec rc0 h
    simp at h
  | cons p rest ih =>
    intro vec rc0 h
    simp only [main_loop]
    have hrc : (fincore_name ps p vec 0).rc = pathRC ps p :=
      (fincore_name_congr ps p vec (fun _ => 0)).1
    by_cases hbad : pathRC ps p < 0
    · have hcond : ¬ ((fincore_name ps p vec 0).rc = 0 ∨ (fincore_name ps p vec 0).rc = 1) := by
        rw [hrc]
        omega
      rw [if_neg hcond]
      by_cases hrest : ∃ q ∈ rest, pathRC ps q < 0
      · exact ih _ _ hrest
      · push_neg at hrest
        exact main_loop_exit_ok ps rest _ 1 (fun q hq => by have := hrest q hq; omega)
    · rcases h with ⟨q, hq, hqneg⟩
      rcases List.mem_cons.mp hq with rfl | hq'
      · exact absurd hqneg hbad
      · exact ih _ _ ⟨q, hq', hqneg⟩

/-! ### Characterisation of fatal paths -/

lemma fd_rc_neg_iff (sys : WinSys) (ps fs : Nat) (hp : 0 < ps) (hs : 0 < fs)
    (hE : ∀ off e, sys.mincoreRes off = Except.error e → 0 < e)
    (vec : Nat → Nat) (count : Nat) :
    (fincore_fd ps sys fs vec count).rc < 0 ↔
      ∃ j, j * (N_PAGES_IN_WINDOW * ps) < fs ∧
        (sys.mmapOk (j * (N_PAGES_IN_WINDOW * ps)) = false ∨
         ∃ e, sys.mincoreRes (j * (N_PAGES_IN_WINDOW * ps)) = Except.error e) := by
  constructor
  · intro hneg
    by_contra hno
    push_neg at hno
    have hm : ∀ j, 0 + j * (N_PAGES_IN_WINDOW * ps) < fs →
        sys.mmapOk (0 + j * (N_PAGES_IN_WINDOW * ps)) = true := by
      intro j hj
      simp only [Nat.zero_add] at hj ⊢
      have h2 := (hno j hj).1
      cases hmm : sys.mmapOk (j * (N_PAGES_IN_WINDOW * ps)) with
      | true => rfl
      | false => exact absurd hmm h2
    have hq : ∀ j, 0 + j * (N_PAGES_IN_WINDOW * ps) < fs →
        ∃ v, sys.mincoreRes (0 + j * (N_PAGES_IN_WINDOW * ps)) = Except.ok v := by
      intro j hj
      simp only [Nat.zero_add] at hj ⊢
      have h2 := (hno j hj).2
      cases hmm : sys.mincoreRes (j * (N_PAGES_IN_WINDOW * ps)) with
      | ok v => exact ⟨v, rfl⟩
      | error e => exact absurd hmm (h2 e)
    have h0 := (go_all_ok sys ps fs hp fs 0 vec count false (by omega) hm hq).1
    unfold fincore_fd at hneg
    omega
  · rintro ⟨j, hj, hbad⟩
    have h0 := go_bad_rc_neg sys ps fs hp hE j fs 0 vec count (by omega)
      (by simpa using hj) (by simpa using hbad)
    exact h0

lemma pathRC_neg_iff (ps : Nat) (p : PathSys) (hp : 0 < ps) (hE : errnoPos p) :
    pathRC ps p < 0 ↔ fatalPath ps p := by
  unfold pathRC fatalPath
  by_cases ho : p.openOk = false
  · refine iff_of_false ?_ ?_
    · simp [fincore_name, ho]
    · rintro ⟨h, -⟩
      rw [ho] at h
      cases h
  · have ho' : p.openOk = true := by simpa using ho
    cases hs : p.statRes with
    | error e =>
      refine iff_of_true ?_ ⟨ho', Or.inl ⟨e, rfl⟩⟩
      have hepos := hE.1 e hs
      simp only [fincore_name, ho, hs]
      simp
      omega
    | ok sb =>
      by_cases hd : sb.isDir = true
      · refine iff_of_false ?_ ?_
        · simp [fincore_name, ho, hs, hd]
        · rintro ⟨-, h | h⟩
          · obtain ⟨e, he⟩ := h
            cases he
          · obtain ⟨sb', hsb', hdir', -⟩ := h
            injection hsb' with hsb'
            subst hsb'
            rw [hd] at hdir'
            cases hdir'
      · by_cases hz : sb.st_size = 0
        · refine iff_of_false ?_ ?_
          · simp [fincore_name, ho, hs, hd, hz]
          · rintro ⟨-, h | h⟩
            · obtain ⟨e, he⟩ := h
              cases he
            · obtain ⟨sb', hsb', -, hsz', -⟩ := h
              injection hsb' with hsb'
              subst hsb'
              omega
        · have hiff := fd_rc_neg_iff p.win ps sb.st_size hp (by omega) hE.2 (fun _ => 0) 0
          have hname : (fincore_name ps p (fun _ => 0) 0).rc
              = (fincore_fd ps p.win sb.st_size (fun _ => 0) 0).rc := by
            simp [fincore_name, ho, hs, hd, hz]
          rw [hname]
          constructor
          · intro h
            obtain ⟨j, hj, hb⟩ := hiff.mp h
            exact ⟨ho', Or.inr ⟨sb, rfl, (by simpa using hd), by omega, j, hj, hb⟩⟩
          · rintro ⟨-, h | h⟩
            · obtain ⟨e, he⟩ := h
              cases he
            · obtain ⟨sb', hsb', -, -, j, hj, hb⟩ := h
              injection hsb' with hsb'
              subst hsb'
              exact hiff.mpr ⟨j, hj, hb⟩

/-! ### Concrete fixtures used by witnesses and concrete runs -/

/-- A file on which every window's `mmap` and `mincore` succeed; the kernel
reports residency bytes `[1, 2, 3]` for every window. -/
def sysAllOk : WinSys :=
  { mmapOk := fun _ => true, mincoreRes := fun _ => Except.ok [1, 2, 3] }

/-- A file on which `mmap` succeeds but `mincore` fails with errno 12. -/
def sysMincoreFail : WinSys :=
  { mmapOk := fun _ => true, mincoreRes := fun _ => Except.error 12 }

/-- A file on which every `mmap` fails. -/
def sysMmapFail : WinSys :=
  { mmapOk := fun _ => false, mincoreRes := fun _ => Except.ok [] }

/-- A path whose `open` fails; the caller's stat buffer stays uninitialized
(junk size 7). -/
def pathOpenFail : PathSys :=
  { openOk := false, statRes := Except.ok { isDir := false, st_size := 0 },
    win := sysAllOk, junk := 7 }

/-- A readable regular 3-byte file, pages 0 and 2 of its window resident. -/
def pathOk3 : PathSys :=
  { openOk := true, statRes := Except.ok { isDir := false, st_size := 3 },
    win := sysAllOk, junk := 0 }

/-- A readable empty regular file. -/
def pathEmpty : PathSys :=
  { openOk := true, statRes := Except.ok { isDir := false, st_size := 0 },
    win := sysAllOk, junk := 3 }

/-- A readable 5-byte regular file whose first `mmap` fails. -/
def pathMmapFail : PathSys :=
  { openOk := true, statRes := Except.ok { isDir := false, st_size := 5 },
    win := sysMmapFail, junk := 0 }

/-! ### Claim theorems -/

/-- C2: for every window of length `len > 0`, `do_mincore` computes the page
count as `ceil(len / pageSize)` and reads exactly that many entries of the
residency vector: the count it adds is determined by the `nPages` bytes the
kernel wrote for this window, and is unchanged under arbitrary stale buffer
contents at indices at or beyond that page count. -/
theorem claim_C2 (ps len : Nat) (fresh : List Nat) (vec vec' : Nat → Nat) (count : Nat)
    (hp : 0 < ps) (hl : 0 < len) :
    nPages ps len = (len + ps - 1) / ps ∧
    (do_mincore ps len (Except.ok fresh) vec count).rc = 0 ∧
    (do_mincore ps len (Except.ok fresh) vec count).count
      = count + winInc fresh (nPages ps len) ∧
    (do_mincore ps len (Except.ok fresh) vec count).count
      = (do_mincore ps len (Except.ok fresh) vec' count).count := by
  refine ⟨nPages_eq ps len hp, rfl, do_mincore_ok_count ps len fresh vec count, ?_⟩
  rw [do_mincore_ok_count, do_mincore_ok_count]

/-- Witness for C2: page size 2, window length 5 (3 pages), residency bytes
`[1, 0, 3]`, two different stale buffers. -/
theorem claim_C2_witness :
    (0 < 2 ∧ 0 < 5) ∧
    (nPages 2 5 = (5 + 2 - 1) / 2 ∧
     (do_mincore 2 5 (Except.ok [1, 0, 3]) (fun _ => 0) 0).rc = 0 ∧
     (do_mincore 2 5 (Except.ok [1, 0, 3]) (fun _ => 0) 0).count
       = 0 + winInc [1, 0, 3] (nPages 2 5) ∧
     (do_mincore 2 5 (Except.ok [1, 0, 3]) (fun _ => 0) 0).count
       = (do_mincore 2 5 (Except.ok [1, 0, 3]) (fun _ => 9) 0).count) :=
  ⟨⟨by decide, by decide⟩,
   claim_C2 2 5 [1, 0, 3] (fun _ => 0) (fun _ => 9) 0 (by decide) (by decide)⟩

/-- C10: a page is counted as resident exactly when the least-significant
bit of its residency-vector entry is set (all other bits ignored, via
`testBit 0`), and precisely the counted entries of the static buffer are set
to zero before the buffer can be reused for the next window. -/
theorem claim_C10 (ps len : Nat) (fresh : List Nat) (vec : Nat → Nat) (count : Nat) :
    (do_mincore ps len (Except.ok fresh) vec count).count
      = count + ((List.range (nPages ps len)).filter
          fun i => (if i < nPages ps len then fresh.getD i 0 else vec i).testBit 0).length ∧
    (do_mincore ps len (Except.ok fresh) vec count).vec
      = fun i => if i < nPages ps len ∧
            (if i < nPages ps len then fresh.getD i 0 else vec i) % 2 = 1
          then 0
          else (if i < nPages ps len then fresh.getD i 0 else vec i) := by
  constructor
  · rw [do_mincore_ok_count]
    unfold winInc
    congr 2
    apply List.filter_congr
    intro i hi
    have hi' : i < nPages ps len := List.mem_range.mp hi
    simp [hi', Nat.testBit_zero]
  · exact do_mincore_ok_vec ps len fresh vec count

/-- C7: a zero-byte regular file produces return code 0, count 0, an empty
event trace (no mapping established, no residency query), and the output
row (size 0, pages 0) — without ever invoking the windowed scanner. -/
theorem claim_C7 (ps : Nat) (p : PathSys) (sb : StatBuf) (vec : Nat → Nat)
    (hopen : p.openOk = true) (hstat : p.statRes = Except.ok sb)
    (hdir : sb.isDir = false) (hsz : sb.st_size = 0) :
    (fincore_name ps p vec 0).rc = 0 ∧
    (fincore_name ps p vec 0).count = 0 ∧
    (fincore_name ps p vec 0).events = [] ∧
    pathOutcome ps p = Outcome.row 0 0 := by
  have ho : ¬ p.openOk = false := by
    rw [hopen]
    simp
  refine ⟨?_, ?_, ?_, ?_⟩ <;>
    simp [fincore_name, pathOutcome, outcomeOf, ho, hstat, hdir, hsz]

/-- Witness for C7: a concrete empty file at page size 1. -/
theorem claim_C7_witness :
    (pathEmpty.openOk = true ∧
     pathEmpty.statRes = Except.ok { isDir := false, st_size := 0 } ∧
     StatBuf.isDir { isDir := false, st_size := 0 } = false ∧
     StatBuf.st_size { isDir := false, st_size := 0 } = 0) ∧
    ((fincore_name 1 pathEmpty (fun _ => 0) 0).rc = 0 ∧
     (fincore_name 1 pathEmpty (fun _ => 0) 0).count = 0 ∧
     (fincore_name 1 pathEmpty (fun _ => 0) 0).events = [] ∧
     pathOutcome 1 pathEmpty = Outcome.row 0 0) :=
  ⟨⟨rfl, rfl, rfl, rfl⟩,
   claim_C7 1 pathEmpty { isDir := false, st_size := 0 } (fun _ => 0) rfl rfl rfl rfl⟩

/-- C4 (bug exhibit): a residency-query failure aborts the scan with the
window still mapped.  With `mincore` failing (errno 12) on the first window
of a 5-byte file at page size 1, the code breaks out of the loop before the
`munmap` call: the trace records the mapping and no release at all. -/
theorem claim_C4 :
    (fincore_fd 1 sysMincoreFail 5 (fun _ => 0) 0).rc = -12 ∧
    (fincore_fd 1 sysMincoreFail 5 (fun _ => 0) 0).events
      = [Ev.mapped 0 5, Ev.mincoreWarn] ∧
    mappedList (fincore_fd 1 sysMincoreFail 5 (fun _ => 0) 0).events = [(0, 5)] ∧
    unmappedList (fincore_fd 1 sysMincoreFail 5 (fun _ => 0) 0).events = [] :=
  ⟨by decide, by decide, by decide, by decide⟩

/-- C3 (bug exhibit): on the input list [unopenable path, readable 3-byte
file], the unopenable path produces a diagnostic AND an output row — built
from the caller's uninitialized stat buffer (junk size 7, count 0) — because
`fincore_name` returns 0 after a failed `open`; the subsequent path still
gets its correct row and the exit status stays 0. -/
theorem claim_C3 :
    (fincore_main 1 true [pathOpenFail, pathOk3]).1.map Prod.fst
      = [Outcome.row 7 0, Outcome.row 3 2] ∧
    (fincore_main 1 true [pathOpenFail, pathOk3]).2 = 0 ∧
    pathEvents 1 pathOpenFail = [Ev.openWarn] ∧
    pathOutcome 1 pathOpenFail = Outcome.row 7 0 :=
  ⟨by decide, by decide, by decide, by decide⟩

/-- C6: for a successfully scanned file, the accumulated resident page count
never exceeds `ceil(fileSize / pageSize)`, and no mapped window's byte range
extends past the file size. -/
theorem claim_C6 (sys : WinSys) (ps fs : Nat) (vec : Nat → Nat)
    (hp : 0 < ps) (hsucc : (fincore_fd ps sys fs vec 0).rc = 0) :
    (fincore_fd ps sys fs vec 0).count ≤ (fs + ps - 1) / ps ∧
    ∀ q ∈ mappedList (fincore_fd ps sys fs vec 0).events, q.1 + q.2 ≤ fs := by
  constructor
  · have h := go_count_le sys ps fs hp fs 0 vec 0 false 0
    simpa using h
  · intro q hq
    exact (go_mapped_sub sys ps fs fs 0 vec 0 false 0 q hq).2.2

/-- Witness for C6: the 3-byte all-resident-query file at page size 1. -/
theorem claim_C6_witness :
    (0 < 1 ∧ (fincore_fd 1 sysAllOk 3 (fun _ => 0) 0).rc = 0) ∧
    ((fincore_fd 1 sysAllOk 3 (fun _ => 0) 0).count ≤ (3 + 1 - 1) / 1 ∧
     ∀ q ∈ mappedList (fincore_fd 1 sysAllOk 3 (fun _ => 0) 0).events, q.1 + q.2 ≤ 3) :=
  ⟨⟨by decide, by decide⟩, claim_C6 sysAllOk 1 3 (fun _ => 0) (by decide) (by decide)⟩

/-- C9: the run produces exactly one outcome per input path, in the order
the paths were given, each outcome (and event list) fully determined by that
path's own behaviour — so a per-file failure never stops or alters the
processing of the remaining paths. -/
theorem claim_C9 (ps : Nat) (paths : List PathSys) :
    (fincore_main ps true paths).1
      = paths.map fun p => (pathOutcome ps p, pathEvents ps p) := by
  unfold fincore_main
  rw [if_pos rfl]
  exact main_loop_spec ps paths (fun _ => 0) 0

/-- C5: if `mmap` fails on window `i` of a regular non-empty file (all
earlier windows succeeding), the failure is diagnosed exactly once for that
file, the windows attempted are exactly the first `i` (none at or beyond the
failing one), the path's outcome is `failed` — no partial-count row — and
every remaining input file is still processed with its own outcome. -/
theorem claim_C5 (ps : Nat) (p : PathSys) (sb : StatBuf) (i : Nat)
    (rest : List PathSys) (vec : Nat → Nat)
    (hp : 0 < ps)
    (hopen : p.openOk = true)
    (hstat : p.statRes = Except.ok sb)
    (hdir : sb.isDir = false)
    (hgood : ∀ j, j < i → p.win.mmapOk (j * (N_PAGES_IN_WINDOW * ps)) = true ∧
      ∃ v, p.win.mincoreRes (j * (N_PAGES_IN_WINDOW * ps)) = Except.ok v)
    (hbadlt : i * (N_PAGES_IN_WINDOW * ps) < sb.st_size)
    (hbad : p.win.mmapOk (i * (N_PAGES_IN_WINDOW * ps)) = false) :
    pathOutcome ps p = Outcome.failed ∧
    mmapWarnCount (pathEvents ps p) = 1 ∧
    mappedList (pathEvents ps p)
      = (List.range i).map (fun j => (j * (N_PAGES_IN_WINDOW * ps),
          min (N_PAGES_IN_WINDOW * ps) (sb.st_size - j * (N_PAGES_IN_WINDOW * ps)))) ∧
    (main_loop ps (p :: rest) vec 0).1
      = (Outcome.failed, pathEvents ps p)
        :: rest.map fun q => (pathOutcome ps q, pathEvents ps q) := by
  have ho : ¬ p.openOk = false := by
    rw [hopen]
    simp
  have hsz : ¬ sb.st_size = 0 := by omega
  have hfd := go_fail_at p.win ps sb.st_size hp i sb.st_size 0 (fun _ => 0) 0
    (by omega)
    (by intro j hj; simpa using hgood j hj)
    (by simpa using hbadlt)
    (by simpa using hbad)
  have hname_rc : (fincore_name ps p (fun _ => 0) 0).rc
      = (fincore_fd ps p.win sb.st_size (fun _ => 0) 0).rc := by
    simp [fincore_name, ho, hstat, hdir, hsz]
  have hname_ev : pathEvents ps p
      = (fincore_fd ps p.win sb.st_size (fun _ => 0) 0).events := by
    simp [pathEvents, fincore_name, ho, hstat, hdir, hsz]
  have hrc22 : (fincore_name ps p (fun _ => 0) 0).rc = -22 := by
    rw [hname_rc]
    exact hfd.1
  have houtcome : pathOutcome ps p = Outcome.failed := by
    unfold pathOutcome outcomeOf
    rw [hrc22]
    norm_num
  refine ⟨houtcome, ?_, ?_, ?_⟩
  · rw [hname_ev]
    exact hfd.2.1
  · rw [hname_ev]
    have h3 := hfd.2.2
    simpa using h3
  · rw [main_loop_spec, List.map_cons, houtcome]

/-- Witness for C5: a 5-byte file whose very first `mmap` fails (window 0),
followed by a healthy 3-byte file, at page size 1. -/
theorem claim_C5_witness :
    (0 < 1 ∧ pathMmapFail.openOk = true ∧
     pathMmapFail.statRes = Except.ok { isDir := false, st_size := 5 } ∧
     StatBuf.isDir { isDir := false, st_size := 5 } = false ∧
     (∀ j, j < 0 → pathMmapFail.win.mmapOk (j * (N_PAGES_IN_WINDOW * 1)) = true ∧
       ∃ v, pathMmapFail.win.mincoreRes (j * (N_PAGES_IN_WINDOW * 1)) = Except.ok v) ∧
     0 * (N_PAGES_IN_WINDOW * 1) < StatBuf.st_size { isDir := false, st_size := 5 } ∧
     pathMmapFail.win.mmapOk (0 * (N_PAGES_IN_WINDOW * 1)) = false) ∧
    (pathOutcome 1 pathMmapFail = Outcome.failed ∧
     mmapWarnCount (pathEvents 1 pathMmapFail) = 1 ∧
     mappedList (pathEvents 1 pathMmapFail)
       = (List.range 0).map (fun j => (j * (N_PAGES_IN_WINDOW * 1),
           min (N_PAGES_IN_WINDOW * 1)
             (StatBuf.st_size { isDir := false, st_size := 5 } - j * (N_PAGES_IN_WINDOW * 1)))) ∧
     (main_loop 1 (pathMmapFail :: [pathOk3]) (fun _ => 0) 0).1
       = (Outcome.failed, pathEvents 1 pathMmapFail)
         :: [pathOk3].map fun q => (pathOutcome 1 q, pathEvents 1 q)) :=
  ⟨⟨by decide, rfl, rfl, rfl, fun j hj => absurd hj (Nat.not_lt_zero j), by decide, rfl⟩,
   claim_C5 1 pathMmapFail { isDir := false, st_size := 5 } 0 [pathOk3] (fun _ => 0)
     (by decide) rfl rfl rfl (fun j hj => absurd hj (Nat.not_lt_zero j)) (by decide) rfl⟩

/-- C8: the exit status is 0 iff the output table was built and no input
path suffered a fatal error — a metadata-query (`fstat`) failure, or an
`mmap`/`mincore` failure on some window of a regular non-empty file;
directory paths are never fatal and so never downgrade the status. -/
theorem claim_C8 (ps : Nat) (tableOk : Bool) (paths : List PathSys)
    (hp : 0 < ps) (hE : ∀ p ∈ paths, errnoPos p) :
    ((fincore_main ps tableOk paths).2 = 0 ↔
      (tableOk = true ∧ ∀ p ∈ paths, ¬ fatalPath ps p)) ∧
    (∀ p, dirPath p → ¬ fatalPath ps p) := by
  constructor
  · cases tableOk with
    | false => simp [fincore_main]
    | true =>
      unfold fincore_main
      rw [if_pos rfl]
      simp only []
      constructor
      · intro hexit
        refine ⟨by trivial, ?_⟩
        intro p hpin hfatal
        have hneg : pathRC ps p < 0 := (pathRC_neg_iff ps p hp (hE p hpin)).mpr hfatal
        have hbad := main_loop_exit_bad ps paths (fun _ => 0) 0 ⟨p, hpin, hneg⟩
        omega
      · rintro ⟨-, hall⟩
        apply main_loop_exit_ok
        intro p hpin
        rw [pathRC_neg_iff ps p hp (hE p hpin)]
        exact hall p hpin
  · intro p hdirp
    rintro ⟨-, h | h⟩
    · obtain ⟨e, he⟩ := h
      obtain ⟨sb, hsb, -⟩ := hdirp
      rw [hsb] at he
      cases he
    · obtain ⟨sb', hsb', hdir', -⟩ := h
      obtain ⟨sb, hsb, hdir⟩ := hdirp
      rw [hsb] at hsb'
      injection hsb' with hsb'
      subst hsb'
      rw [hdir] at hdir'
      cases hdir'

/-- Witness for C8: one healthy path, table built, at page size 1. -/
theorem claim_C8_witness :
    (0 < 1 ∧ ∀ p ∈ [pathOk3], errnoPos p) ∧
    (((fincore_main 1 true [pathOk3]).2 = 0 ↔
       (true = true ∧ ∀ p ∈ [pathOk3], ¬ fatalPath 1 p)) ∧
     (∀ p, dirPath p → ¬ fatalPath 1 p)) := by
  have herrno : ∀ p ∈ [pathOk3], errnoPos p := by
    intro p hpin
    rw [List.mem_singleton] at hpin
    subst hpin
    constructor
    · intro e h
      simp [pathOk3] at h
    · intro off e h
      simp [pathOk3, sysAllOk] at h
  exact ⟨⟨by decide, herrno⟩, claim_C8 1 true [pathOk3] (by decide) herrno⟩

/-- The tiling facts claim C1 asserts about one scan: the mapped windows
equal the spec's window sequence; they start at offset 0, are contiguous,
non-overlapping and ascending; each has length `min ws (size - offset)` and
stays inside the file; their lengths sum to the file size; a file of size
`k * pageSize * windowCapacity` is scanned in exactly `k` windows; and a
file one byte larger than one window is scanned as two windows, the second
of length 1. -/
def scanTilesFile (sys : WinSys) (ps fs : Nat) (vec : Nat → Nat) (count : Nat) : Prop :=
  let ws := N_PAGES_IN_WINDOW * ps
  let L := mappedList (fincore_fd ps sys fs vec count).events
  L = specWindows ws fs ∧
  (0 < L.length ∧ L.getD 0 (0, 0) = (0, min ws fs)) ∧
  (∀ i, i + 1 < L.length →
    (L.getD (i + 1) (0, 0)).1 = (L.getD i (0, 0)).1 + (L.getD i (0, 0)).2) ∧
  (∀ i j, i < j → j < L.length →
    (L.getD i (0, 0)).1 + (L.getD i (0, 0)).2 ≤ (L.getD j (0, 0)).1) ∧
  (∀ q ∈ L, q.2 = min ws (fs - q.1) ∧ 0 < q.2 ∧ q.1 + q.2 ≤ fs) ∧
  (L.map fun q => q.2).sum = fs ∧
  (∀ k, fs = k * ps * N_PAGES_IN_WINDOW → L.length = k) ∧
  (fs = ws + 1 → L = [(0, ws), (ws, 1)])

/-- C1: under a scan in which every `mmap` and `mincore` call succeeds, the
windows visited tile `[0, fs)` contiguously, non-overlapping, in ascending
order, with the stated lengths and counts. -/
theorem claim_C1 (sys : WinSys) (ps fs : Nat) (vec : Nat → Nat) (count : Nat)
    (hp : 0 < ps) (hs : 0 < fs)
    (hm : ∀ off, sys.mmapOk off = true)
    (hq : ∀ off, ∃ v, sys.mincoreRes off = Except.ok v) :
    scanTilesFile sys ps fs vec count := by
  have hws : 0 < N_PAGES_IN_WINDOW * ps := Nat.mul_pos (by decide) hp
  have hL : mappedList (fincore_fd ps sys fs vec count).events
      = specWindows (N_PAGES_IN_WINDOW * ps) fs := by
    have h := (go_all_ok sys ps fs hp fs 0 vec count false (by omega)
      (fun j _ => hm _) (fun j _ => hq _)).2
    rw [← specTail_zero]
    exact h
  unfold scanTilesFile
  rw [hL]
  refine ⟨rfl, ⟨specWindows_pos_length hws hs, ?_⟩, ?_, ?_, ?_, ?_, ?_, ?_⟩
  · rw [specWindows_getD _ _ 0 (specWindows_pos_length hws hs)]
    simp
  · intro i hi
    have hi' : i < (specWindows (N_PAGES_IN_WINDOW * ps) fs).length := by omega
    rw [specWindows_getD _ _ _ hi, specWindows_getD _ _ _ hi']
    have hlt := specWindows_succ_lt hws hi
    have e1 : (i + 1) * (N_PAGES_IN_WINDOW * ps)
        = i * (N_PAGES_IN_WINDOW * ps) + N_PAGES_IN_WINDOW * ps := Nat.succ_mul _ _
    simp only []
    omega
  · intro i j hij hj
    have hi : i < (specWindows (N_PAGES_IN_WINDOW * ps) fs).length := by omega
    rw [specWindows_getD _ _ _ hi, specWindows_getD _ _ _ hj]
    simp only []
    have h1 : (i + 1) * (N_PAGES_IN_WINDOW * ps) ≤ j * (N_PAGES_IN_WINDOW * ps) :=
      Nat.mul_le_mul_right _ (by omega)
    have e1 : (i + 1) * (N_PAGES_IN_WINDOW * ps)
        = i * (N_PAGES_IN_WINDOW * ps) + N_PAGES_IN_WINDOW * ps := Nat.succ_mul _ _
    omega
  · rw [← specTail_zero]
    intro q hq'
    have h := @specTail_mem (N_PAGES_IN_WINDOW * ps) fs hws fs 0 (by omega) q hq'
    exact ⟨h.2.1, h.2.2.1, h.2.2.2⟩
  · rw [← specTail_zero]
    have h := @specTail_sum (N_PAGES_IN_WINDOW * ps) fs hws fs 0 (by omega)
    simpa using h
  · intro k hk
    rw [specWindows_length]
    have ec : k * ps * N_PAGES_IN_WINDOW = k * (N_PAGES_IN_WINDOW * ps) := by ring
    rw [hk, ec]
    have ec2 : k * (N_PAGES_IN_WINDOW * ps) = (N_PAGES_IN_WINDOW * ps) * k :=
      Nat.mul_comm _ _
    have e3 : k * (N_PAGES_IN_WINDOW * ps) + N_PAGES_IN_WINDOW * ps - 1
        = (N_PAGES_IN_WINDOW * ps) * k + (N_PAGES_IN_WINDOW * ps - 1) := by omega
    rw [e3, Nat.mul_add_div hws, Nat.div_eq_of_lt (by omega)]
    omega
  · intro hfs
    rw [hfs]
    unfold specWindows
    have hd : N_PAGES_IN_WINDOW * ps + 1 + N_PAGES_IN_WINDOW * ps - 1
        = N_PAGES_IN_WINDOW * ps * 2 := by omega
    rw [hd, Nat.mul_div_cancel_left 2 hws]
    rw [show List.range 2 = [0, 1] from rfl]
    simp only [List.map_cons, List.map_nil]
    have g1 : (0 : Nat) * (N_PAGES_IN_WINDOW * ps) = 0 := by omega
    have g2 : min (N_PAGES_IN_WINDOW * ps) (N_PAGES_IN_WINDOW * ps + 1 - 0)
        = N_PAGES_IN_WINDOW * ps := by omega
    have g3 : (1 : Nat) * (N_PAGES_IN_WINDOW * ps) = N_PAGES_IN_WINDOW * ps := by omega
    have g4 : min (N_PAGES_IN_WINDOW * ps)
        (N_PAGES_IN_WINDOW * ps + 1 - N_PAGES_IN_WINDOW * ps) = 1 := by omega
    rw [g1, g2, g3, g4]

/-- Witness for C1: a 1-byte file at page size 1 under an all-successful
system. -/
theorem claim_C1_witness :
    (0 < 1 ∧ 0 < 1 ∧ (∀ off, sysAllOk.mmapOk off = true) ∧
     (∀ off, ∃ v, sysAllOk.mincoreRes off = Except.ok v)) ∧
    scanTilesFile sysAllOk 1 1 (fun _ => 0) 0 :=
  ⟨⟨by decide, by decide, fun _ => rfl, fun _ => ⟨[1, 2, 3], rfl⟩⟩,
   claim_C1 sysAllOk 1 1 (fun _ => 0) 0 (by decide) (by decide)
     (fun _ => rfl) (fun _ => ⟨[1, 2, 3], rfl⟩)⟩

end Fincore
